import Mathlib

set_option maxHeartbeats 1000000
set_option maxRecDepth 8000

/-!
Shallow embedding of `scripts/make-demo-gif.py`.

The script converts a JSON-lines event log into an animated GIF: it scans the
log for `tool_execution_update` / `tool_execution_end` events of the tool
`codex_search` (`load_updates`), deduplicates consecutive update texts, appends
a "Done." summary built from the last end event, downsamples long update
sequences, renders each update with `textwrap.wrap` (`terminal_frame`), and
assigns per-frame durations (`main`).

Python strings are modelled as `List Char`.  Whitespace handling is modelled
for the ASCII range: `isWs` is exactly Python's `string.whitespace` (which is
also the whitespace class used by `textwrap`), and `splitlines` handles the
ASCII line boundaries `\n`, `\r`, `\r\n`, `\v`, `\f`.
-/

/-- Python strings are modelled as lists of characters. -/
abbrev Str := List Char

instance exceptDecEq {ε α : Type} [DecidableEq ε] [DecidableEq α] :
    DecidableEq (Except ε α) := fun a b =>
  match a, b with
  | .error x, .error y => decidable_of_iff (x = y) (by simp)
  | .ok x, .ok y => decidable_of_iff (x = y) (by simp)
  | .error _, .ok _ => .isFalse (by simp)
  | .ok _, .error _ => .isFalse (by simp)

/-- Convert a Lean string literal into the character-list model. -/
def pyStr (s : String) : Str := s.toList

/-- The six characters of Python's `string.whitespace` (also `textwrap._whitespace`). -/
def isWs (c : Char) : Bool :=
  c = ' ' || c = '\t' || c = '\n' || c = '\x0b' || c = '\x0c' || c = '\r'

/-- Python `str.strip()`: remove leading and trailing whitespace (ASCII model). -/
def pyStrip (s : Str) : Str :=
  ((s.dropWhile isWs).reverse.dropWhile isWs).reverse

/-- ASCII line boundaries of Python `str.splitlines()` (besides `\r\n`). -/
def isLineBreak (c : Char) : Bool :=
  c = '\n' || c = '\r' || c = '\x0b' || c = '\x0c'

/-- Worker for `splitlines`; `acc` is the current line, reversed, and
`afterCR` records that the previous character was `\r`, so that a following
`\n` is part of the same `\r\n` boundary. -/
def splitlinesAux : Str → Bool → Str → List Str
  | [], _, acc => if acc.isEmpty then [] else [acc.reverse]
  | c :: rest, afterCR, acc =>
    if c = '\n' then
      if afterCR then splitlinesAux rest false []
      else acc.reverse :: splitlinesAux rest false []
    else if c = '\r' then acc.reverse :: splitlinesAux rest true []
    else if isLineBreak c then acc.reverse :: splitlinesAux rest false []
    else splitlinesAux rest false (c :: acc)

/-- Python `str.splitlines()` (ASCII model; no trailing empty line). -/
def splitlines (s : Str) : List Str := splitlinesAux s false []

/-- Python `"\n".join(...)`. -/
def joinNL : List Str → Str
  | [] => []
  | [x] => x
  | x :: xs => x ++ '\n' :: joinNL xs

/-- Python `"\n".join(text.splitlines()[:7])` from `load_updates`. -/
def firstSevenLines (t : Str) : Str := joinNL ((splitlines t).take 7)

/-- One parsed JSON event, as far as the script reads it: the `type` and
`toolName` fields, and the `text` fields of `partialResult.content` and
`result.content` (a missing object or list is the empty list, a missing
`text` field is the empty string, matching the `.get(..., default)` calls). -/
structure Event where
  type : Str
  toolName : Str
  partialResultContent : List Str
  resultContent : List Str
deriving DecidableEq

/-- One line of the log file after the read loop's own filtering: either a
line that is blank or fails to parse as JSON (`junk`), or a parsed event. -/
inductive LogLine where
  | junk : LogLine
  | event : Event → LogLine
deriving DecidableEq

def tyUpdate : Str := pyStr "tool_execution_update"

def tyEnd : Str := pyStr "tool_execution_end"

def toolCodexSearch : Str := pyStr "codex_search"

def doneMarker : Str := pyStr "Done.\n"

def noUpdatesMsg : Str := pyStr "No tool_execution_update events found in "

/-- The mutable state of the `for` loop in `load_updates`. -/
structure ScanState where
  updates : List Str
  finalSummary : Option Str
deriving DecidableEq

/-- The `tool_execution_update` branch of the loop body. -/
def updateStep (st : ScanState) (e : Event) : ScanState :=
  match e.partialResultContent with
  | [] => st
  | c0 :: _ =>
    let text := pyStrip c0
    if text ≠ [] ∧ (st.updates = [] ∨ st.updates.getLast? ≠ some text) then
      { st with updates := st.updates ++ [text] }
    else st

/-- The `tool_execution_end` branch of the loop body. -/
def endStep (st : ScanState) (e : Event) : ScanState :=
  match e.resultContent with
  | [] => st
  | c0 :: _ =>
    let text := pyStrip c0
    if text ≠ [] then { st with finalSummary := some (firstSevenLines text) }
    else st

/-- One iteration of the `for` loop in `load_updates`. -/
def processLine (st : ScanState) (l : LogLine) : ScanState :=
  match l with
  | .junk => st
  | .event e =>
    let st1 :=
      if e.type = tyUpdate ∧ e.toolName = toolCodexSearch then updateStep st e else st
    if e.type = tyEnd ∧ e.toolName = toolCodexSearch then endStep st1 e else st1

/-- The full scan of the log. -/
def scanLog (log : List LogLine) : ScanState :=
  log.foldl processLine ⟨[], none⟩

/-- The update list after the scan and the `"Done."` append
(`if final_summary: updates.append("Done.\n" + final_summary)`;
Python truthiness makes both `None` and the empty string skip the append). -/
def preSampleUpdates (log : List LogLine) : List Str :=
  let st := scanLog log
  if st.finalSummary.getD [] ≠ [] then
    st.updates ++ [doneMarker ++ st.finalSummary.getD []]
  else st.updates

/-- Worker for `everyNth`: `k` counts down to the next kept element. -/
def everyNthAux : List Str → Nat → Nat → List Str
  | [], _, _ => []
  | a :: rest, step, 0 => a :: everyNthAux rest step (step - 1)
  | _ :: rest, step, k + 1 => everyNthAux rest step k

/-- Python `updates[::step]` for `step ≥ 1`. -/
def everyNth (l : List Str) (step : Nat) : List Str := everyNthAux l step 0

/-- The downsampling step at the end of `load_updates`. -/
def sample (updates : List Str) : List Str :=
  if 14 < updates.length then
    let step := max 1 (updates.length / 12)
    let sampled := everyNth updates step
    if sampled.getLast? ≠ updates.getLast? then sampled ++ updates.getLast?.toList
    else sampled
  else updates

/-- `load_updates(path)`: the scan, the `"Done."` append, the empty check
(raising `RuntimeError` with a message naming the path), and the sampling. -/
def loadUpdates (path : Str) (log : List LogLine) : Except Str (List Str) :=
  let updates := preSampleUpdates log
  if updates.isEmpty then Except.error (noUpdatesMsg ++ path)
  else Except.ok (sample updates)

/-- Sum of the lengths of a list of strings. -/
def sumLen (l : List Str) : Nat := (l.map List.length).sum

/-- Worker for Python `str.expandtabs()` (tabsize 8); `col` is the current
column, reset after `\n` and `\r`. -/
def expandtabsAux : Str → Nat → Str
  | [], _ => []
  | c :: rest, col =>
    if c = '\t' then
      List.replicate (8 - col % 8) ' ' ++ expandtabsAux rest (col + (8 - col % 8))
    else if c = '\n' ∨ c = '\r' then c :: expandtabsAux rest 0
    else c :: expandtabsAux rest (col + 1)

/-- Python `str.expandtabs()` with the default tab size 8. -/
def expandtabs (s : Str) : Str := expandtabsAux s 0

/-- `textwrap`'s `unicode_whitespace_trans`: each whitespace character is
replaced by a space. -/
def mungeChar (c : Char) : Char := if isWs c then ' ' else c

/-- `TextWrapper._munge_whitespace` with the default options
(`expand_tabs=True`, `replace_whitespace=True`). -/
def munge (s : Str) : Str := (expandtabs s).map mungeChar

/-- Worker for `splitChunks`; `ws` is the class of the current run `acc`
(reversed). `acc` is nonempty whenever this is called. -/
def splitChunksAux : Str → Bool → Str → List Str
  | [], _, acc => [acc.reverse]
  | c :: rest, ws, acc =>
    if isWs c = ws then splitChunksAux rest ws (c :: acc)
    else acc.reverse :: splitChunksAux rest (isWs c) [c]

/-- `TextWrapper._split`: split the munged text into maximal runs of
whitespace and non-whitespace (both kept, empties dropped).  Modelled from
the Python standard library `textwrap`; the default `break_on_hyphens`
refinement, which additionally splits hyphenated words, is not modelled —
theorems about whitespace-only break points therefore carry an explicit
no-hyphen hypothesis. -/
def splitChunks : Str → List Str
  | [] => []
  | c :: rest => splitChunksAux rest (isWs c) [c]

/-- Python `chunk.strip() == ''`. -/
def isWsChunk (c : Str) : Bool := (pyStrip c).isEmpty

/-- The inner `while` of `TextWrapper._wrap_chunks`: greedily take chunks
while the current line length stays within `width`. -/
def takeFit (width : Nat) : Nat → List Str → List Str × List Str
  | _, [] => ([], [])
  | curLen, c :: rest =>
    if curLen + c.length ≤ width then
      let p := takeFit width (curLen + c.length) rest
      (c :: p.1, p.2)
    else ([], c :: rest)

/-- `space_left` in `TextWrapper._handle_long_word`. -/
def spaceLeft (width curLen : Nat) : Nat := if width < 1 then 1 else width - curLen

/-- One line's chunk collection: the greedy take, then (`break_long_words`)
the long-chunk break of `_handle_long_word` when the next chunk is longer
than the whole width. -/
def wrapTake (width : Nat) (chunks : List Str) : List Str × List Str :=
  let p := takeFit width 0 chunks
  match p.2 with
  | [] => p
  | r0 :: rs =>
    if width < r0.length then
      (p.1 ++ [r0.take (spaceLeft width (sumLen p.1))],
       r0.drop (spaceLeft width (sumLen p.1)) :: rs)
    else p

/-- The `drop_whitespace` removal of a trailing whitespace chunk from the
current line. -/
def trimCur (cur : List Str) : List Str :=
  match cur.getLast? with
  | some lc => if isWsChunk lc then cur.dropLast else cur
  | none => cur

/-- `TextWrapper._wrap_chunks` with the script's effective options
(`width=64`, `drop_whitespace=True`, `break_long_words=True`, no indents,
`max_lines=None`).  `noLines` records whether no line has been emitted yet
(Python tests `lines`); the fuel argument only drives the recursion and is
chosen large enough in `wrapChunks` (each iteration strictly shrinks
`sumLen chunks + chunks.length`). -/
def wrapChunksFuel (width : Nat) : Nat → List Str → Bool → List Str
  | 0, _, _ => []
  | _ + 1, [], _ => []
  | fuel + 1, c :: cs, noLines =>
    let chunks1 := if isWsChunk c && !noLines then cs else c :: cs
    let q := wrapTake width chunks1
    let cur := trimCur q.1
    if cur.isEmpty then wrapChunksFuel width fuel q.2 noLines
    else cur.flatten :: wrapChunksFuel width fuel q.2 false

/-- `TextWrapper._wrap_chunks` on a chunk list. -/
def wrapChunks (width : Nat) (chunks : List Str) : List Str :=
  wrapChunksFuel width (sumLen chunks + chunks.length) chunks true

/-- `textwrap.wrap(line, width)` as called by `terminal_frame`
(default options; see `splitChunks` for the modelling caveat). -/
def pyWrap (line : Str) (width : Nat) : List Str :=
  wrapChunks width (splitChunks (munge line))

/-- Python `xs or [""]`. -/
def orBlank (l : List Str) : List Str := if l.isEmpty then [[]] else l

/-- The `wrapped_lines` computation of `terminal_frame`:
split the update on line boundaries, word-wrap each line to 64 columns,
with `or [""]` fallbacks for empty results. -/
def wrappedLines (text : Str) : List Str :=
  (orBlank (splitlines text)).flatMap (fun line => orBlank (pyWrap line 64))

/-- The frame list of `main`; a frame is represented by the body lines that
`terminal_frame` word-wraps for it. -/
def frames (updates : List Str) : List (List Str) := updates.map wrappedLines

/-- The duration assignment of `main`: `[520] * n`, then `durations[0] = 900`,
then `durations[-1] = 1700` (`main` only reaches this with `n ≥ 1`). -/
def durations (n : Nat) : List Nat :=
  ((List.replicate n 520).set 0 900).set (n - 1) 1700

/-- `main` up to the data handed to the GIF encoder: the frames and their
durations, or the `load_updates` error. -/
def mainFrames (path : Str) (log : List LogLine) :
    Except Str (List (List Str) × List Nat) :=
  match loadUpdates path log with
  | .error e => .error e
  | .ok updates => .ok (frames updates, durations (frames updates).length)

/-- Worker for `wordsOf`; `acc` is the current word, reversed. -/
def wordsAux : Str → Str → List Str
  | [], acc => if acc.isEmpty then [] else [acc.reverse]
  | c :: rest, acc =>
    if isWs c then
      (if acc.isEmpty then wordsAux rest [] else acc.reverse :: wordsAux rest [])
    else wordsAux rest (c :: acc)

/-- The whitespace-separated words of a line (maximal non-whitespace runs). -/
def wordsOf (s : Str) : List Str := wordsAux s []

/-- The length of the shortest single line containing the given words
separated by single spaces. -/
def minWrapLen (ws : List Str) : Nat := sumLen ws + (ws.length - 1)

/-- No two adjacent elements of the list are equal. -/
def adjacentDistinct : List Str → Bool
  | [] => true
  | [_] => true
  | a :: b :: rest => a != b && adjacentDistinct (b :: rest)

/-- The trimmed text of a `tool_execution_end` event of the target tool,
when it is non-empty — exactly the events whose summary `load_updates`
records. -/
def endEventText : LogLine → Option Str
  | .junk => none
  | .event e =>
    if e.type = tyEnd ∧ e.toolName = toolCodexSearch then
      match e.resultContent with
      | [] => none
      | c0 :: _ => if pyStrip c0 = [] then none else some (pyStrip c0)
    else none

/-- Whether the line is a `tool_execution_update` event of the target tool. -/
def isUpdateEventLine : LogLine → Bool
  | .junk => false
  | .event e => decide (e.type = tyUpdate ∧ e.toolName = toolCodexSearch)

/-- The lines that contribute nothing to the scan: blank or unparseable lines,
and target-tool events whose expected nested content is missing or whose
trimmed text is empty. -/
def skippable : LogLine → Bool
  | .junk => true
  | .event e =>
    if e.type = tyUpdate ∧ e.toolName = toolCodexSearch then
      match e.partialResultContent with
      | [] => true
      | c0 :: _ => (pyStrip c0).isEmpty
    else if e.type = tyEnd ∧ e.toolName = toolCodexSearch then
      match e.resultContent with
      | [] => true
      | c0 :: _ => (pyStrip c0).isEmpty
    else false

/-- A `tool_execution_update` event of the target tool carrying `t`. -/
def updEvent (t : Str) : LogLine :=
  .event ⟨tyUpdate, toolCodexSearch, [t], []⟩

/-- A `tool_execution_end` event of the target tool carrying `t`. -/
def endEvent (t : Str) : LogLine :=
  .event ⟨tyEnd, toolCodexSearch, [], [t]⟩

/-- The log of the end-to-end scenario of C1. -/
def c1Log : List LogLine :=
  [updEvent (pyStr "searching..."), updEvent (pyStr "searching... (2 files)"),
   updEvent (pyStr "searching... (2 files)"), endEvent (pyStr "found 1 match\nin file.py")]

/-- A log path used in the concrete scenarios. -/
def smokePath : Str := pyStr "smoke-local.jsonl"

/-- A log on which the `"Done."` append duplicates the last update. -/
def c3Log : List LogLine := [updEvent (pyStr "Done.\nx"), endEvent (pyStr "x")]

/-- A 65-character single word. -/
def c4Line : Str := List.replicate 65 'a'

/-- Thirteen 5-letter words: hyphen-free, each word fits, but their total
width 13*5 + 12 = 77 exceeds 64. -/
def c4WitnessLine : Str :=
  pyStr "alpha bravo coral delta eagle flame grape hotel igloo jelly koala lemon mango"

/-- A three-update sequence for the duration witness. -/
def c6Updates : List Str := [pyStr "a", pyStr "b", pyStr "c"]

/-- A log with two end events; only the second one's summary survives. -/
def c7Log : List LogLine :=
  [endEvent (pyStr "first result"), LogLine.junk, endEvent (pyStr "found 1 match\nin file.py")]

/-- A log with no update events but one qualifying end event. -/
def c10Log : List LogLine := [LogLine.junk, endEvent (pyStr "hi\nthere")]

/-- A chunk whose characters are all whitespace or all non-whitespace. -/
def pureChunk (c0 : Str) : Prop :=
  (∀ x ∈ c0, isWs x = true) ∨ (∀ x ∈ c0, isWs x = false)

/-- Chunk lists of strictly alternating class, starting with class `ws`
(the shape `splitChunks` produces). -/
def altChunks : Bool → List Str → Prop
  | _, [] => True
  | ws, c0 :: rest => (∀ x ∈ c0, isWs x = ws) ∧ c0 ≠ [] ∧ altChunks (!ws) rest

/-- No two adjacent chunks are both word chunks. -/
def noWordPair : List Str → Prop
  | [] => True
  | [_] => True
  | a :: b :: rest => (isWsChunk a = true ∨ isWsChunk b = true) ∧ noWordPair (b :: rest)

/-- The word chunks of a chunk list. -/
def chunksWords (l : List Str) : List Str := l.filter (fun c0 => !isWsChunk c0)

/-! ### Basic list helpers -/

theorem mem_of_getLast?_eq {α : Type} {l : List α} {a : α}
    (h : l.getLast? = some a) : a ∈ l := by
  induction l with
  | nil => simp at h
  | cons x t ih =>
    cases t with
    | nil =>
      simp [List.getLast?] at h
      simp [h]
    | cons y t2 =>
      rw [List.getLast?_cons_cons] at h
      exact List.mem_cons_of_mem x (ih h)

theorem getLast?_cons_eq {α : Type} (a : α) (l : List α) :
    (a :: l).getLast? =
      (match l.getLast? with
       | some z => some z
       | none => some a) := by
  cases l with
  | nil => rfl
  | cons b t =>
    rw [List.getLast?_cons_cons]
    cases h : (b :: t).getLast? with
    | some z => rfl
    | none => exact absurd (List.getLast?_eq_none_iff.mp h) (by simp)

theorem head?_dropWhile_not {α : Type} (p : α → Bool) (l : List α) {c : α}
    (h : (l.dropWhile p).head? = some c) : p c = false := by
  induction l with
  | nil => simp at h
  | cons x t ih =>
    rw [List.dropWhile_cons] at h
    by_cases hp : p x = true
    · exact ih (by simpa [hp] using h)
    · simp only [hp, if_neg] at h
      simp at h
      rw [← h]
      simpa using hp

/-! ### Scan-state lemmas -/

theorem updateStep_finalSummary (st : ScanState) (e : Event) :
    (updateStep st e).finalSummary = st.finalSummary := by
  unfold updateStep
  cases e.partialResultContent with
  | nil => rfl
  | cons c0 t => dsimp only; split <;> rfl

theorem endStep_updates (st : ScanState) (e : Event) :
    (endStep st e).updates = st.updates := by
  unfold endStep
  cases e.resultContent with
  | nil => rfl
  | cons c0 t => dsimp only; split <;> rfl

theorem tyUpdate_ne_tyEnd : tyUpdate ≠ tyEnd := by decide

theorem processLine_event (st : ScanState) (e : Event) :
    processLine st (.event e) =
      (if e.type = tyEnd ∧ e.toolName = toolCodexSearch then
        endStep (if e.type = tyUpdate ∧ e.toolName = toolCodexSearch then updateStep st e else st) e
      else if e.type = tyUpdate ∧ e.toolName = toolCodexSearch then updateStep st e else st) :=
  rfl

theorem endStep_eq (st : ScanState) (e : Event) :
    endStep st e =
      (match e.resultContent with
       | [] => st
       | c0 :: _ =>
         if pyStrip c0 ≠ [] then { st with finalSummary := some (firstSevenLines (pyStrip c0)) }
         else st) := rfl

theorem endEventText_event (e : Event) :
    endEventText (LogLine.event e) =
      (if e.type = tyEnd ∧ e.toolName = toolCodexSearch then
        match e.resultContent with
        | [] => none
        | c0 :: _ => if pyStrip c0 = [] then none else some (pyStrip c0)
      else none) := rfl

theorem processLine_finalSummary (st : ScanState) (l : LogLine) :
    (processLine st l).finalSummary =
      (match endEventText l with
       | some t => some (firstSevenLines t)
       | none => st.finalSummary) := by
  cases l with
  | junk => rfl
  | event e =>
    rw [processLine_event, endEventText_event]
    have hfs : (if e.type = tyUpdate ∧ e.toolName = toolCodexSearch then
        updateStep st e else st).finalSummary = st.finalSummary := by
      split
      · exact updateStep_finalSummary st e
      · rfl
    by_cases h2 : e.type = tyEnd ∧ e.toolName = toolCodexSearch
    · rw [if_pos h2, if_pos h2, endStep_eq]
      cases hc : e.resultContent with
      | nil => simpa using hfs
      | cons c0 t =>
        by_cases hs : pyStrip c0 = []
        · simpa [hs] using hfs
        · simp [hs]
    · rw [if_neg h2, if_neg h2]
      exact hfs

theorem foldl_finalSummary (log : List LogLine) (st : ScanState) :
    (log.foldl processLine st).finalSummary =
      (match (log.filterMap endEventText).getLast? with
       | some t => some (firstSevenLines t)
       | none => st.finalSummary) := by
  induction log generalizing st with
  | nil => rfl
  | cons l rest ih =>
    rw [List.foldl_cons, ih, List.filterMap_cons]
    cases h : endEventText l with
    | none => rw [processLine_finalSummary, h]
    | some t =>
      rw [getLast?_cons_eq]
      cases h2 : (rest.filterMap endEventText).getLast? with
      | some t2 => rfl
      | none => rw [processLine_finalSummary, h]

theorem scanLog_finalSummary (log : List LogLine) :
    (scanLog log).finalSummary =
      (match (log.filterMap endEventText).getLast? with
       | some t => some (firstSevenLines t)
       | none => none) :=
  foldl_finalSummary log ⟨[], none⟩

theorem updateStep_eq (st : ScanState) (e : Event) :
    updateStep st e =
      (match e.partialResultContent with
       | [] => st
       | c0 :: _ =>
         if pyStrip c0 ≠ [] ∧ (st.updates = [] ∨ st.updates.getLast? ≠ some (pyStrip c0)) then
           { st with updates := st.updates ++ [pyStrip c0] }
         else st) := rfl

theorem adjacentDistinct_append (u : List Str) (x : Str)
    (had : adjacentDistinct u = true) (hne : u.getLast? ≠ some x) :
    adjacentDistinct (u ++ [x]) = true := by
  induction u with
  | nil => rfl
  | cons a t ih =>
    cases t with
    | nil =>
      have hax : a ≠ x := fun hh => hne (by simp [hh, List.getLast?])
      simpa [adjacentDistinct, Bool.and_eq_true, bne_iff_ne] using hax
    | cons b t2 =>
      have had' : (a != b) = true ∧ adjacentDistinct (b :: t2) = true := by
        simpa [adjacentDistinct, Bool.and_eq_true] using had
      have hne' : (b :: t2).getLast? ≠ some x := by
        rwa [List.getLast?_cons_cons] at hne
      have hres := ih had'.2 hne'
      simpa [adjacentDistinct, Bool.and_eq_true, had'.1] using hres

theorem updateStep_adjacentDistinct (st : ScanState) (e : Event)
    (h : adjacentDistinct st.updates = true) :
    adjacentDistinct (updateStep st e).updates = true := by
  rw [updateStep_eq]
  cases hc : e.partialResultContent with
  | nil => exact h
  | cons c0 tl =>
    dsimp only
    split
    case isTrue hcnd =>
      apply adjacentDistinct_append _ _ h
      rcases hcnd.2 with he | hg
      · rw [he]; simp
      · exact hg
    case isFalse _ => exact h

theorem processLine_adjacentDistinct (st : ScanState) (l : LogLine)
    (h : adjacentDistinct st.updates = true) :
    adjacentDistinct (processLine st l).updates = true := by
  cases l with
  | junk => exact h
  | event e =>
    rw [processLine_event]
    have hin : adjacentDistinct
        (if e.type = tyUpdate ∧ e.toolName = toolCodexSearch then
          updateStep st e else st).updates = true := by
      split
      · exact updateStep_adjacentDistinct st e h
      · exact h
    split
    · rw [endStep_updates]; exact hin
    · exact hin

theorem foldl_adjacentDistinct (log : List LogLine) (st : ScanState)
    (h : adjacentDistinct st.updates = true) :
    adjacentDistinct (log.foldl processLine st).updates = true := by
  induction log generalizing st with
  | nil => exact h
  | cons l rest ih =>
    rw [List.foldl_cons]
    exact ih _ (processLine_adjacentDistinct st l h)

/-! ### Skippable-line lemmas -/

theorem skippable_event (e : Event) :
    skippable (.event e) =
      (if e.type = tyUpdate ∧ e.toolName = toolCodexSearch then
        match e.partialResultContent with
        | [] => true
        | c0 :: _ => (pyStrip c0).isEmpty
      else if e.type = tyEnd ∧ e.toolName = toolCodexSearch then
        match e.resultContent with
        | [] => true
        | c0 :: _ => (pyStrip c0).isEmpty
      else false) := rfl

theorem processLine_skippable (st : ScanState) (l : LogLine)
    (h : skippable l = true) : processLine st l = st := by
  cases l with
  | junk => rfl
  | event e =>
    rw [processLine_event]
    rw [skippable_event] at h
    by_cases h1 : e.type = tyUpdate ∧ e.toolName = toolCodexSearch
    · have h2 : ¬(e.type = tyEnd ∧ e.toolName = toolCodexSearch) := by
        rintro ⟨hb, -⟩
        exact tyUpdate_ne_tyEnd (h1.1.symm.trans hb)
      rw [if_neg h2, if_pos h1]
      rw [if_pos h1] at h
      rw [updateStep_eq]
      cases hc : e.partialResultContent with
      | nil => rfl
      | cons c0 tl =>
        rw [hc] at h
        have hs : pyStrip c0 = [] := by simpa [List.isEmpty_iff] using h
        dsimp only
        rw [if_neg (by simp [hs])]
    · rw [if_neg h1] at h
      by_cases h2 : e.type = tyEnd ∧ e.toolName = toolCodexSearch
      · rw [if_pos h2] at h
        rw [if_pos h2, if_neg h1, endStep_eq]
        cases hc : e.resultContent with
        | nil => rfl
        | cons c0 tl =>
          rw [hc] at h
          have hs : pyStrip c0 = [] := by simpa [List.isEmpty_iff] using h
          dsimp only
          rw [if_neg (by simp [hs])]
      · rw [if_neg h2] at h
        exact absurd h (by simp)

theorem foldl_filter_skippable (log : List LogLine) (st : ScanState) :
    (log.filter (fun l => !skippable l)).foldl processLine st = log.foldl processLine st := by
  induction log generalizing st with
  | nil => rfl
  | cons l rest ih =>
    rw [List.filter_cons]
    by_cases h : skippable l = true
    · rw [if_neg (by simp [h])]
      rw [List.foldl_cons, processLine_skippable st l h]
      exact ih st
    · rw [if_pos (by simp [Bool.eq_false_iff.mpr h])]
      rw [List.foldl_cons, List.foldl_cons]
      exact ih (processLine st l)

/-! ### First-character lemmas for stripped strings -/

theorem pyStrip_head? (s : Str) (h : pyStrip s ≠ []) :
    ∃ c t, pyStrip s = c :: t ∧ isWs c = false := by
  have hps : pyStrip s = ((s.dropWhile isWs).reverse.dropWhile isWs).reverse := rfl
  have hvne : (s.dropWhile isWs).reverse.dropWhile isWs ≠ [] := by
    intro hnil
    exact h (by rw [hps, hnil]; rfl)
  have hgl : ((s.dropWhile isWs).reverse.dropWhile isWs).getLast? =
      (s.dropWhile isWs).reverse.getLast? := by
    conv_rhs => rw [← List.takeWhile_append_dropWhile isWs (s.dropWhile isWs).reverse]
    rw [List.getLast?_append]
    cases hvl : ((s.dropWhile isWs).reverse.dropWhile isWs).getLast? with
    | none => exact absurd (List.getLast?_eq_none_iff.mp hvl) hvne
    | some z => rw [Option.or_some]
  have hh : (pyStrip s).head? = (s.dropWhile isWs).head? := by
    rw [hps, List.head?_reverse, hgl, List.getLast?_reverse]
  cases hc : (s.dropWhile isWs).head? with
  | none =>
    rw [hc] at hh
    cases hps2 : pyStrip s with
    | nil => exact absurd hps2 h
    | cons a b => rw [hps2] at hh; simp at hh
  | some c =>
    have hcw : isWs c = false := head?_dropWhile_not isWs s hc
    rw [hc] at hh
    cases hps2 : pyStrip s with
    | nil => exact absurd hps2 h
    | cons a b =>
      rw [hps2] at hh
      simp at hh
      exact ⟨a, b, rfl, by rw [hh]; exact hcw⟩

theorem splitlinesAux_head (s : Str) (acc : Str) (h : acc ≠ []) :
    ∃ w r, splitlinesAux s false acc = (acc.reverse ++ w) :: r := by
  induction s generalizing acc with
  | nil =>
    refine ⟨[], [], ?_⟩
    simp [splitlinesAux, h]
  | cons c rest ih =>
    by_cases h1 : c = '\n'
    · subst h1
      exact ⟨[], splitlinesAux rest false [], by simp [splitlinesAux]⟩
    · by_cases h2 : c = '\r'
      · subst h2
        exact ⟨[], splitlinesAux rest true [], by simp [splitlinesAux]⟩
      · by_cases h3 : isLineBreak c = true
        · exact ⟨[], splitlinesAux rest false [], by simp [splitlinesAux, h1, h2, h3]⟩
        · obtain ⟨w, r, hw⟩ := ih (c :: acc) (by simp)
          refine ⟨c :: w, r, ?_⟩
          have h3' : isLineBreak c = false := by simpa using h3
          rw [show splitlinesAux (c :: rest) false acc = splitlinesAux rest false (c :: acc) by
              simp [splitlinesAux, h1, h2, h3']]
          rw [hw]
          simp

theorem splitlines_head_of_not_break (c : Char) (t : Str) (h : isLineBreak c = false) :
    ∃ w r, splitlines (c :: t) = (c :: w) :: r := by
  have h1 : c ≠ '\n' := by rintro rfl; simp [isLineBreak] at h
  have h2 : c ≠ '\r' := by rintro rfl; simp [isLineBreak] at h
  have hstep : splitlines (c :: t) = splitlinesAux t false [c] := by
    simp [splitlines, splitlinesAux, h1, h2, h]
  obtain ⟨w, r, hw⟩ := splitlinesAux_head t [c] (by simp)
  exact ⟨w, r, by rw [hstep, hw]; simp⟩

theorem isWs_of_isLineBreak {c : Char} (h : isLineBreak c = true) : isWs c = true := by
  simp only [isLineBreak, Bool.or_eq_true, decide_eq_true_eq] at h
  simp only [isWs, Bool.or_eq_true, decide_eq_true_eq]
  tauto

theorem isLineBreak_of_isWs_false {c : Char} (h : isWs c = false) : isLineBreak c = false := by
  by_contra hb
  have hb' : isLineBreak c = true := by simpa using hb
  rw [isWs_of_isLineBreak hb'] at h
  exact absurd h (by simp)

theorem joinNL_cons_ne_nil (x : Str) (xs : List Str) (hx : x ≠ []) :
    joinNL (x :: xs) ≠ [] := by
  cases xs with
  | nil => simpa [joinNL] using hx
  | cons y ys => simp [joinNL]

theorem firstSevenLines_ne_nil {t : Str}
    (hhead : ∃ c r, t = c :: r ∧ isWs c = false) : firstSevenLines t ≠ [] := by
  obtain ⟨c, r, rfl, hcw⟩ := hhead
  obtain ⟨w, rr, hw⟩ := splitlines_head_of_not_break c r (isLineBreak_of_isWs_false hcw)
  rw [firstSevenLines, hw, List.take_succ_cons]
  exact joinNL_cons_ne_nil _ _ (by simp)

theorem endEventText_inv {l : LogLine} {t : Str} (h : endEventText l = some t) :
    ∃ c0, t = pyStrip c0 ∧ t ≠ [] := by
  cases l with
  | junk => simp [endEventText] at h
  | event e =>
    rw [endEventText_event] at h
    by_cases h2 : e.type = tyEnd ∧ e.toolName = toolCodexSearch
    · rw [if_pos h2] at h
      cases hc : e.resultContent with
      | nil => rw [hc] at h; simp at h
      | cons c0 tl =>
        rw [hc] at h
        dsimp only at h
        by_cases hs : pyStrip c0 = []
        · rw [if_pos hs] at h; simp at h
        · rw [if_neg hs] at h
          simp at h
          exact ⟨c0, h.symm, by rw [← h]; exact hs⟩
    · rw [if_neg h2] at h; simp at h

theorem firstSevenLines_of_getLast? {log : List LogLine} {t : Str}
    (h : (log.filterMap endEventText).getLast? = some t) : firstSevenLines t ≠ [] := by
  have hmem := mem_of_getLast?_eq h
  obtain ⟨l, -, hl⟩ := List.mem_filterMap.mp hmem
  obtain ⟨c0, rfl, hne⟩ := endEventText_inv hl
  obtain ⟨c, r, heq, hcw⟩ := pyStrip_head? c0 hne
  exact firstSevenLines_ne_nil ⟨c, r, heq, hcw⟩

/-! ### Sampling lemmas -/

theorem everyNthAux_sublist (l : List Str) (step k : Nat) :
    (everyNthAux l step k).Sublist l := by
  induction l generalizing k with
  | nil => exact List.Sublist.slnil
  | cons a rest ih =>
    cases k with
    | zero => exact (ih (step - 1)).cons₂ a
    | succ k => exact (ih k).cons a

theorem everyNthAux_getLast (l : List Str) (step k : Nat) (z : Str)
    (h : l.getLast? = some z) :
    (everyNthAux l step k ++ [z]).Sublist l ∨ (everyNthAux l step k).getLast? = some z := by
  induction l generalizing k with
  | nil => simp at h
  | cons a rest ih =>
    rw [getLast?_cons_eq] at h
    cases hrl : rest.getLast? with
    | none =>
      have hrest : rest = [] := List.getLast?_eq_none_iff.mp hrl
      subst hrest
      rw [hrl] at h
      have hz : a = z := by simpa using h
      subst hz
      cases k with
      | zero => right; rfl
      | succ k => left; exact List.Sublist.refl _
    | some w =>
      rw [hrl] at h
      have hw : w = z := by simpa using h
      subst hw
      cases k with
      | zero =>
        rcases ih (step - 1) hrl with hs | hg
        · exact Or.inl (hs.cons₂ a)
        · right
          rw [show everyNthAux (a :: rest) step 0 =
              a :: everyNthAux rest step (step - 1) from rfl]
          rw [getLast?_cons_eq, hg]
      | succ k =>
        rcases ih k hrl with hs | hg
        · exact Or.inl (hs.cons a)
        · exact Or.inr hg

theorem sample_head? (u : List Str) (h : u ≠ []) : (sample u).head? = u.head? := by
  obtain ⟨a, rest, rfl⟩ := List.exists_cons_of_ne_nil h
  simp only [sample]
  split
  · split
    · rfl
    · rfl
  · rfl

theorem sample_getLast? (u : List Str) (h : u ≠ []) : (sample u).getLast? = u.getLast? := by
  simp only [sample]
  split
  · split
    case isTrue hne =>
      cases hz : u.getLast? with
      | none => exact absurd (List.getLast?_eq_none_iff.mp hz) h
      | some z => simp [List.getLast?_concat]
    case isFalse hne =>
      simpa using hne
  · rfl

theorem sample_sublist (u : List Str) : (sample u).Sublist u := by
  simp only [sample]
  split
  case isTrue h14 =>
    have hne : u ≠ [] := by
      intro hnil
      rw [hnil] at h14
      simp at h14
    split
    case isTrue hg =>
      cases hz : u.getLast? with
      | none => exact absurd (List.getLast?_eq_none_iff.mp hz) hne
      | some z =>
        rcases everyNthAux_getLast u (max 1 (u.length / 12)) 0 z hz with hs | hlast
        · simpa [hz] using hs
        · rw [hz] at hg
          exact absurd hlast hg
    case isFalse hg => exact everyNthAux_sublist u _ 0
  case isFalse => exact List.Sublist.refl u

theorem sample_ne_nil (u : List Str) (h : u ≠ []) : sample u ≠ [] := by
  intro hnil
  have := sample_head? u h
  rw [hnil] at this
  obtain ⟨a, rest, rfl⟩ := List.exists_cons_of_ne_nil h
  simp at this

/-! ### Duration lemmas -/

theorem durations_length (n : Nat) : (durations n).length = n := by
  simp [durations]

theorem durations_head? {n : Nat} (h : 2 ≤ n) : (durations n).head? = some 900 := by
  rw [durations, List.head?_eq_getElem?]
  rw [List.getElem?_set_ne (by omega)]
  rw [List.getElem?_set_eq (by simpa using by omega)]

theorem durations_getLast? {n : Nat} (h : 1 ≤ n) : (durations n).getLast? = some 1700 := by
  rw [durations, List.getLast?_eq_getElem?]
  have hlen : ((((List.replicate n 520).set 0 900).set (n - 1) 1700)).length = n := by
    simp
  rw [hlen]
  rw [List.getElem?_set_eq (by simp; omega)]

theorem durations_interior {n i : Nat} (h0 : 0 < i) (h1 : i + 1 < n) :
    (durations n)[i]? = some 520 := by
  rw [durations]
  rw [List.getElem?_set_ne (by omega)]
  rw [List.getElem?_set_ne (by omega)]
  rw [List.getElem?_replicate]
  rw [if_pos (by omega)]

/-! ### No-update-event lemma -/

theorem foldl_updates_of_no_update_events (log : List LogLine) (st : ScanState)
    (h : ∀ l ∈ log, isUpdateEventLine l = false) :
    (log.foldl processLine st).updates = st.updates := by
  induction log generalizing st with
  | nil => rfl
  | cons l rest ih =>
    rw [List.foldl_cons]
    rw [ih _ (fun x hx => h x (List.mem_cons_of_mem l hx))]
    cases l with
    | junk => rfl
    | event e =>
      have he : ¬(e.type = tyUpdate ∧ e.toolName = toolCodexSearch) := by
        have hm := h _ (List.mem_cons_self _ _)
        simpa [isUpdateEventLine] using hm
      rw [processLine_event, if_neg he]
      split
      · exact endStep_updates st e
      · rfl

/-! ### Claims -/

/-- C1: for a log with the three update events `"searching..."`,
`"searching... (2 files)"`, `"searching... (2 files)"` (a duplicate) followed
by one end event with result text `"found 1 match\nin file.py"`,
`load_updates` returns exactly the three updates (the duplicate is dropped
and the end event is appended behind a `"Done."` line) and `main` renders 3
frames and assigns them durations `[900, 520, 1700]`. -/
theorem c1_end_to_end_scenario :
    loadUpdates smokePath c1Log =
      Except.ok [pyStr "searching...", pyStr "searching... (2 files)",
        pyStr "Done.\nfound 1 match\nin file.py"]
    ∧ (frames [pyStr "searching...", pyStr "searching... (2 files)",
        pyStr "Done.\nfound 1 match\nin file.py"]).length = 3
    ∧ durations 3 = [900, 520, 1700] := by
  refine ⟨by decide, by decide, by decide⟩

/-- C2: on a log whose scan yields no updates and no final summary,
`load_updates` fails with an error naming the source path, and `main` never
produces frame data (no output file is written). -/
theorem c2_empty_updates_error (path : Str) (log : List LogLine)
    (h1 : (scanLog log).updates = [])
    (h2 : (scanLog log).finalSummary.getD [] = []) :
    loadUpdates path log = Except.error (noUpdatesMsg ++ path)
    ∧ ∀ out, mainFrames path log ≠ Except.ok out := by
  have hpre : preSampleUpdates log = [] := by
    simp [preSampleUpdates, h1, h2]
  have hload : loadUpdates path log = Except.error (noUpdatesMsg ++ path) := by
    simp [loadUpdates, hpre]
  refine ⟨hload, ?_⟩
  intro out
  simp [mainFrames, hload]

theorem c2_witness :
    loadUpdates smokePath [LogLine.junk] = Except.error (noUpdatesMsg ++ smokePath) :=
  (c2_empty_updates_error smokePath [LogLine.junk] (by decide) (by decide)).1

/-- C3 counterexample: on a log whose only update text is literally
`"Done.\nx"` and whose end event's text is `"x"`, the `"Done."` append
duplicates the last update and `load_updates` returns a sequence with two
adjacent equal elements, refuting the claim that the returned sequence never
contains adjacent duplicates. -/
theorem c3_counterexample :
    loadUpdates smokePath c3Log = Except.ok [pyStr "Done.\nx", pyStr "Done.\nx"]
    ∧ adjacentDistinct [pyStr "Done.\nx", pyStr "Done.\nx"] = false := by
  refine ⟨by decide, by decide⟩

/-- C3 (amended): the deduplication applies only to the update list built
from the `tool_execution_update` events during the scan — that list never
contains two adjacent equal elements; the later `"Done."` append (and, for
long sequences, the stride sampling) can reintroduce adjacent duplicates. -/
theorem c3_scan_adjacent_distinct (log : List LogLine) :
    adjacentDistinct (scanLog log).updates = true :=
  foldl_adjacentDistinct log ⟨[], none⟩ rfl

/-- C5: for every non-empty update sequence, sampling returns at least one
element, a subsequence of its input (relative order preserved), with the
input's first element first and the input's last element last. -/
theorem c5_sampling_guarantees (u : List Str) (h : u ≠ []) :
    1 ≤ (sample u).length ∧ (sample u).Sublist u
    ∧ (sample u).head? = u.head? ∧ (sample u).getLast? = u.getLast? :=
  ⟨List.length_pos.mpr (sample_ne_nil u h), sample_sublist u,
   sample_head? u h, sample_getLast? u h⟩

theorem c5_witness :
    1 ≤ (sample c6Updates).length ∧ (sample c6Updates).Sublist c6Updates
    ∧ (sample c6Updates).head? = c6Updates.head?
    ∧ (sample c6Updates).getLast? = c6Updates.getLast? :=
  c5_sampling_guarantees c6Updates (by decide)

/-- C6: `main` builds exactly one frame per update; with `n ≥ 2` updates the
first frame's duration is 900 ms, the last frame's is 1700 ms and every
interior frame's is 520 ms; with a single update the one frame's duration is
1700 ms because the last assignment wins. -/
theorem c6_frames_durations (updates : List Str) (h : updates ≠ []) :
    (frames updates).length = updates.length
    ∧ (updates.length = 1 → durations (frames updates).length = [1700])
    ∧ (2 ≤ updates.length →
        (durations (frames updates).length).length = updates.length
        ∧ (durations (frames updates).length).head? = some 900
        ∧ (durations (frames updates).length).getLast? = some 1700
        ∧ ∀ i, 0 < i → i + 1 < updates.length →
            (durations (frames updates).length)[i]? = some 520) := by
  have hlen : (frames updates).length = updates.length := List.length_map _ _
  refine ⟨hlen, ?_, ?_⟩
  · intro h1
    rw [hlen, h1]
    decide
  · intro h2
    rw [hlen]
    exact ⟨durations_length _, durations_head? h2,
      durations_getLast? (by omega),
      fun i hi0 hi1 => durations_interior hi0 hi1⟩

theorem c6_witness :
    (frames c6Updates).length = c6Updates.length
    ∧ (durations (frames c6Updates).length).head? = some 900
    ∧ (durations (frames c6Updates).length).getLast? = some 1700
    ∧ (durations (frames c6Updates).length)[1]? = some 520 :=
  ⟨(c6_frames_durations c6Updates (by decide)).1,
   ((c6_frames_durations c6Updates (by decide)).2.2 (by decide)).2.1,
   ((c6_frames_durations c6Updates (by decide)).2.2 (by decide)).2.2.1,
   ((c6_frames_durations c6Updates (by decide)).2.2 (by decide)).2.2.2 1
     (by decide) (by decide)⟩

/-- C7: when the log contains end events of the target tool with non-empty
trimmed text, only the last one's text is used: the scan's final summary is
the first 7 lines of that text joined by newlines, and it is appended to the
update sequence as a single element behind a literal `"Done."` line. -/
theorem c7_last_end_event (log : List LogLine) (t : Str)
    (h : (log.filterMap endEventText).getLast? = some t) :
    (scanLog log).finalSummary = some (firstSevenLines t)
    ∧ preSampleUpdates log =
        (scanLog log).updates ++ [doneMarker ++ firstSevenLines t] := by
  have hfs : (scanLog log).finalSummary = some (firstSevenLines t) := by
    rw [scanLog_finalSummary, h]
  refine ⟨hfs, ?_⟩
  have hne := firstSevenLines_of_getLast? h
  simp [preSampleUpdates, hfs, hne]

theorem c7_witness :
    (scanLog c7Log).finalSummary =
      some (firstSevenLines (pyStr "found 1 match\nin file.py"))
    ∧ preSampleUpdates c7Log =
        (scanLog c7Log).updates ++
          [doneMarker ++ firstSevenLines (pyStr "found 1 match\nin file.py")] :=
  c7_last_end_event c7Log (pyStr "found 1 match\nin file.py") (by decide)

/-- C8: on sequences of at most 14 updates the sampling step is the
identity. -/
theorem c8_sample_short_identity (u : List Str) (h : u.length ≤ 14) :
    sample u = u := by
  simp only [sample]
  rw [if_neg (by omega)]

theorem c8_witness : sample [pyStr "x", pyStr "y"] = [pyStr "x", pyStr "y"] :=
  c8_sample_short_identity [pyStr "x", pyStr "y"] (by decide)

/-- C9: blank lines, lines that fail to parse as JSON, and target-tool events
whose expected nested content fields are missing or empty are skipped without
raising: `load_updates` returns the same result on the log with those lines
removed. -/
theorem c9_skipped_lines (path : Str) (log : List LogLine) :
    loadUpdates path (log.filter (fun l => !skippable l)) = loadUpdates path log := by
  have hscan : scanLog (log.filter (fun l => !skippable l)) = scanLog log :=
    foldl_filter_skippable log ⟨[], none⟩
  simp only [loadUpdates, preSampleUpdates, hscan]

/-- C10: on a log with no `tool_execution_update` events of the target tool
but at least one end event with non-empty trimmed text, `load_updates` does
not raise: it returns exactly one update, `"Done.\n"` followed by the first 7
lines of the last such end event's text. -/
theorem c10_end_event_only (path : Str) (log : List LogLine) (t : Str)
    (h1 : ∀ l ∈ log, isUpdateEventLine l = false)
    (h2 : (log.filterMap endEventText).getLast? = some t) :
    loadUpdates path log = Except.ok [doneMarker ++ firstSevenLines t] := by
  have hu : (scanLog log).updates = [] :=
    foldl_updates_of_no_update_events log _ h1
  have hfs : (scanLog log).finalSummary = some (firstSevenLines t) := by
    rw [scanLog_finalSummary, h2]
  have hne := firstSevenLines_of_getLast? h2
  have hpre : preSampleUpdates log = [doneMarker ++ firstSevenLines t] := by
    simp [preSampleUpdates, hu, hfs, hne]
  simp [loadUpdates, hpre, sample]

theorem c10_witness :
    loadUpdates smokePath c10Log =
      Except.ok [doneMarker ++ firstSevenLines (pyStr "hi\nthere")] :=
  c10_end_event_only smokePath c10Log (pyStr "hi\nthere") (by decide) (by decide)

/-! ### Chunk and word lemmas for the wrap model -/

theorem pyStrip_eq_nil_iff (s : Str) : pyStrip s = [] ↔ ∀ x ∈ s, isWs x = true := by
  constructor
  · intro h x hx
    have hv : (s.dropWhile isWs).reverse.dropWhile isWs = [] :=
      List.reverse_eq_nil_iff.mp h
    have hall : ∀ y ∈ (s.dropWhile isWs).reverse, isWs y = true :=
      List.dropWhile_eq_nil_iff.mp hv
    have hall2 : ∀ y ∈ s.dropWhile isWs, isWs y = true :=
      fun y hy => hall y (by simpa using hy)
    have hx2 : x ∈ s.takeWhile isWs ++ s.dropWhile isWs := by
      rw [List.takeWhile_append_dropWhile]
      exact hx
    rcases List.mem_append.mp hx2 with h1 | h1
    · exact List.mem_takeWhile_imp h1
    · exact hall2 x h1
  · intro h
    have hd : s.dropWhile isWs = [] := List.dropWhile_eq_nil_iff.mpr h
    rw [pyStrip, hd]
    rfl

theorem isWsChunk_iff (c0 : Str) : isWsChunk c0 = true ↔ ∀ x ∈ c0, isWs x = true := by
  rw [isWsChunk, List.isEmpty_iff]
  exact pyStrip_eq_nil_iff c0

theorem isWsChunk_false (c0 : Str) (h0 : c0 ≠ []) (h : ∀ x ∈ c0, isWs x = false) :
    isWsChunk c0 = false := by
  by_contra hb
  have hall := (isWsChunk_iff c0).mp (by simpa using hb)
  obtain ⟨x, hx⟩ := List.exists_mem_of_ne_nil c0 h0
  have h1 := hall x hx
  rw [h x hx] at h1
  exact absurd h1 (by simp)

theorem wordsAux_cons (c : Char) (rest acc : Str) :
    wordsAux (c :: rest) acc =
      if isWs c = true then
        (if acc.isEmpty then wordsAux rest [] else acc.reverse :: wordsAux rest [])
      else wordsAux rest (c :: acc) := rfl

theorem wordsAux_ws_skip (w : Str) (s : Str) (h : ∀ x ∈ w, isWs x = true) :
    wordsAux (w ++ s) [] = wordsAux s [] := by
  induction w with
  | nil => rfl
  | cons c w' ih =>
    have hc : isWs c = true := h c (List.mem_cons_self _ _)
    rw [List.cons_append, wordsAux_cons, if_pos hc]
    simpa using ih (fun x hx => h x (List.mem_cons_of_mem _ hx))

theorem wordsAux_all_ws (w : Str) (h : ∀ x ∈ w, isWs x = true) : wordsAux w [] = [] := by
  have hr := wordsAux_ws_skip w [] h
  simpa using hr

theorem wordsAux_word : ∀ (w : Str) (s : Str) (acc : Str),
    w ≠ [] → (∀ x ∈ w, isWs x = false) →
    (s = [] ∨ ∃ d s', s = d :: s' ∧ isWs d = true) →
    wordsAux (w ++ s) acc = (acc.reverse ++ w) :: wordsAux s [] := by
  intro w
  induction w with
  | nil => intro s acc h; exact absurd rfl h
  | cons c w' ih =>
    intro s acc _ hw hs
    have hc : isWs c = false := hw c (List.mem_cons_self _ _)
    rw [List.cons_append, wordsAux_cons, if_neg (by simp [hc])]
    by_cases hw' : w' = []
    · subst hw'
      rcases hs with rfl | ⟨d, s', rfl, hd⟩
      · simp [wordsAux]
      · rw [List.nil_append, wordsAux_cons, if_pos hd, wordsAux_cons, if_pos hd]
        simp
    · rw [ih s (c :: acc) hw' (fun x hx => hw x (List.mem_cons_of_mem _ hx)) hs]
      simp

theorem wordsAux_ws_end : ∀ (s w acc : Str), (∀ x ∈ w, isWs x = true) →
    wordsAux (s ++ w) acc = wordsAux s acc := by
  intro s
  induction s with
  | nil =>
    intro w acc hw
    cases w with
    | nil => rfl
    | cons d w' =>
      have hd : isWs d = true := hw d (List.mem_cons_self _ _)
      rw [List.nil_append, wordsAux_cons, if_pos hd,
        wordsAux_all_ws w' (fun x hx => hw x (List.mem_cons_of_mem _ hx))]
      by_cases hacc : acc.isEmpty = true
      · rw [if_pos hacc]
        have : acc = [] := by simpa [List.isEmpty_iff] using hacc
        subst this
        rfl
      · rw [if_neg hacc]
        have : acc ≠ [] := by simpa [List.isEmpty_iff] using hacc
        simp [wordsAux, this]
  | cons c s' ih =>
    intro w acc hw
    rw [List.cons_append, wordsAux_cons, wordsAux_cons, ih w [] hw, ih w (c :: acc) hw]

theorem wordsOf_flatten (l : List Str)
    (hne : ∀ c0 ∈ l, c0 ≠ []) (hp : ∀ c0 ∈ l, pureChunk c0) (hnw : noWordPair l) :
    wordsOf l.flatten = chunksWords l := by
  induction l with
  | nil => rfl
  | cons c0 rest ih =>
    have hrest_ne : ∀ x ∈ rest, x ≠ [] := fun x hx => hne x (List.mem_cons_of_mem _ hx)
    have hrest_p : ∀ x ∈ rest, pureChunk x := fun x hx => hp x (List.mem_cons_of_mem _ hx)
    have hrest_nw : noWordPair rest := by
      cases rest with
      | nil => trivial
      | cons b r => exact hnw.2
    rw [List.flatten_cons]
    by_cases hws : isWsChunk c0 = true
    · have hall : ∀ x ∈ c0, isWs x = true := (isWsChunk_iff c0).mp hws
      rw [show wordsOf (c0 ++ rest.flatten) = wordsOf rest.flatten from
          wordsAux_ws_skip _ _ hall]
      rw [ih hrest_ne hrest_p hrest_nw]
      simp [chunksWords, List.filter_cons, hws]
    · have hcne : c0 ≠ [] := hne c0 (List.mem_cons_self _ _)
      have hword : ∀ x ∈ c0, isWs x = false := by
        rcases hp c0 (List.mem_cons_self _ _) with hl | hr
        · exact absurd ((isWsChunk_iff c0).mpr hl) (by simp [hws])
        · exact hr
      have hs : rest.flatten = [] ∨ ∃ d s', rest.flatten = d :: s' ∧ isWs d = true := by
        cases rest with
        | nil => left; rfl
        | cons c2 r2 =>
          right
          have hc2ws : isWsChunk c2 = true := by
            rcases hnw.1 with h | h
            · exact absurd h (by simp [hws])
            · exact h
          have hc2all : ∀ x ∈ c2, isWs x = true := (isWsChunk_iff c2).mp hc2ws
          have hc2ne : c2 ≠ [] :=
            hne c2 (List.mem_cons_of_mem _ (List.mem_cons_self _ _))
          obtain ⟨d, c2', rfl⟩ := List.exists_cons_of_ne_nil hc2ne
          exact ⟨d, c2' ++ r2.flatten, by simp, hc2all d (List.mem_cons_self _ _)⟩
      rw [show wordsOf (c0 ++ rest.flatten) = c0 :: wordsOf rest.flatten from by
            have hww := wordsAux_word c0 rest.flatten [] hcne hword hs
            simpa [wordsOf] using hww]
      rw [ih hrest_ne hrest_p hrest_nw]
      simp [chunksWords, List.filter_cons, hws]

/-! ### splitChunks alternation and word content -/

theorem splitChunksAux_cons (c : Char) (rest : Str) (ws : Bool) (acc : Str) :
    splitChunksAux (c :: rest) ws acc =
      (if isWs c = ws then splitChunksAux rest ws (c :: acc)
       else acc.reverse :: splitChunksAux rest (isWs c) [c]) := rfl

theorem altChunks_splitChunksAux : ∀ (s : Str) (ws : Bool) (acc : Str),
    acc ≠ [] → (∀ x ∈ acc, isWs x = ws) →
    altChunks ws (splitChunksAux s ws acc) := by
  intro s
  induction s with
  | nil =>
    intro ws acc hne hacc
    exact ⟨fun x hx => hacc x (by simpa using hx), by simpa using hne, trivial⟩
  | cons c rest ih =>
    intro ws acc hne hacc
    rw [splitChunksAux_cons]
    by_cases hc : isWs c = ws
    · rw [if_pos hc]
      refine ih ws (c :: acc) (by simp) ?_
      intro x hx
      rcases List.mem_cons.mp hx with rfl | hx2
      · exact hc
      · exact hacc x hx2
    · rw [if_neg hc]
      refine ⟨fun x hx => hacc x (by simpa using hx), by simpa using hne, ?_⟩
      have hcc : isWs c = !ws := by
        cases hws : ws <;> cases hic : isWs c <;> simp_all
      rw [← hcc]
      refine ih (isWs c) [c] (by simp) ?_
      intro x hx
      simp at hx
      subst hx
      rfl

theorem altChunks_nonempty_pure : ∀ (l : List Str) (ws : Bool), altChunks ws l →
    ∀ c0 ∈ l, c0 ≠ [] ∧ pureChunk c0 := by
  intro l
  induction l with
  | nil => intro ws _ c0 hc0; simp at hc0
  | cons a rest ih =>
    intro ws h c0 hc0
    rcases List.mem_cons.mp hc0 with rfl | hmem
    · refine ⟨h.2.1, ?_⟩
      cases ws with
      | false => exact Or.inr (fun x hx => h.1 x hx)
      | true => exact Or.inl (fun x hx => h.1 x hx)
    · exact ih (!ws) h.2.2 c0 hmem

theorem altChunks_noWordPair : ∀ (l : List Str) (ws : Bool), altChunks ws l →
    noWordPair l := by
  intro l
  induction l with
  | nil => intro ws _; trivial
  | cons a rest ih =>
    intro ws h
    cases rest with
    | nil => trivial
    | cons b r =>
      constructor
      · cases ws with
        | false => exact Or.inr ((isWsChunk_iff b).mpr (fun x hx => h.2.2.1 x hx))
        | true => exact Or.inl ((isWsChunk_iff a).mpr (fun x hx => h.1 x hx))
      · exact ih (!ws) h.2.2

theorem splitChunks_props (s : Str) :
    (∀ c0 ∈ splitChunks s, c0 ≠ [] ∧ pureChunk c0) ∧ noWordPair (splitChunks s) := by
  cases s with
  | nil => exact ⟨fun c0 hc0 => by simp [splitChunks] at hc0, trivial⟩
  | cons c rest =>
    have halt : altChunks (isWs c) (splitChunksAux rest (isWs c) [c]) := by
      refine altChunks_splitChunksAux rest (isWs c) [c] (by simp) ?_
      intro x hx
      simp at hx
      subst hx
      rfl
    exact ⟨altChunks_nonempty_pure _ _ halt, altChunks_noWordPair _ _ halt⟩

theorem splitChunksAux_words : ∀ (s : Str) (ws : Bool) (acc : Str),
    acc ≠ [] → (∀ x ∈ acc, isWs x = ws) →
    chunksWords (splitChunksAux s ws acc) = wordsAux s (if ws then [] else acc) := by
  intro s
  induction s with
  | nil =>
    intro ws acc hne hacc
    cases ws with
    | true =>
      have hwc : isWsChunk acc.reverse = true :=
        (isWsChunk_iff _).mpr (fun x hx => hacc x (by simpa using hx))
      simp [splitChunksAux, chunksWords, List.filter_cons, hwc, wordsAux]
    | false =>
      have hne' : acc.reverse ≠ [] := by simpa using hne
      have hwc : isWsChunk acc.reverse = false :=
        isWsChunk_false _ hne' (fun x hx => hacc x (by simpa using hx))
      simp [splitChunksAux, chunksWords, List.filter_cons, hwc, wordsAux,
        List.isEmpty_iff, hne]
  | cons c rest ih =>
    intro ws acc hne hacc
    rw [splitChunksAux_cons]
    by_cases hc : isWs c = ws
    · rw [if_pos hc]
      rw [ih ws (c :: acc) (by simp) ?hacc']
      case hacc' =>
        intro x hx
        rcases List.mem_cons.mp hx with rfl | h2
        · exact hc
        · exact hacc x h2
      cases ws with
      | true => rw [wordsAux_cons]; simp [hc]
      | false => rw [wordsAux_cons]; simp [hc]
    · rw [if_neg hc]
      have hstep := ih (isWs c) [c] (by simp) ?hc1
      case hc1 =>
        intro x hx
        simp at hx
        subst hx
        rfl
      cases ws with
      | true =>
        have hcf : isWs c = false := by simpa using hc
        have hwacc : isWsChunk acc.reverse = true :=
          (isWsChunk_iff _).mpr (fun x hx => hacc x (by simpa using hx))
        rw [show chunksWords (acc.reverse :: splitChunksAux rest (isWs c) [c]) =
            chunksWords (splitChunksAux rest (isWs c) [c]) from by
              simp [chunksWords, List.filter_cons, hwacc]]
        rw [hstep, wordsAux_cons]
        simp [hcf]
      | false =>
        have hct : isWs c = true := by
          cases hic : isWs c
          · exact absurd hic hc
          · rfl
        have hne' : acc.reverse ≠ [] := by simpa using hne
        have hwacc : isWsChunk acc.reverse = false :=
          isWsChunk_false _ hne' (fun x hx => hacc x (by simpa using hx))
        rw [show chunksWords (acc.reverse :: splitChunksAux rest (isWs c) [c]) =
            acc.reverse :: chunksWords (splitChunksAux rest (isWs c) [c]) from by
              simp [chunksWords, List.filter_cons, hwacc]]
        rw [hstep, wordsAux_cons]
        simp [hct, hne]

theorem splitChunks_words (s : Str) : chunksWords (splitChunks s) = wordsOf s := by
  cases s with
  | nil => rfl
  | cons c rest =>
    have hw := splitChunksAux_words rest (isWs c) [c] (by simp) ?hmem
    case hmem =>
      intro x hx
      simp at hx
      subst hx
      rfl
    rw [show splitChunks (c :: rest) = splitChunksAux rest (isWs c) [c] from rfl, hw]
    rw [show wordsOf (c :: rest) = wordsAux (c :: rest) [] from rfl, wordsAux_cons]
    by_cases hc : isWs c = true
    · rw [if_pos hc, hc]
      simp
    · have hcf : isWs c = false := by simpa using hc
      rw [if_neg hc, hcf]
      simp

/-! ### Whitespace munging preserves words -/

theorem wordsAux_map_munge : ∀ (s acc : Str),
    wordsAux (s.map mungeChar) acc = wordsAux s acc := by
  intro s
  induction s with
  | nil => intro acc; rfl
  | cons c rest ih =>
    intro acc
    rw [List.map_cons, wordsAux_cons, wordsAux_cons]
    by_cases hc : isWs c = true
    · have hm : isWs (mungeChar c) = true := by
        rw [mungeChar, if_pos hc]
        decide
      rw [if_pos hm, if_pos hc, ih []]
    · have hcf : isWs c = false := by simpa using hc
      have hm : mungeChar c = c := by simp [mungeChar, hcf]
      rw [hm, if_neg hc, if_neg hc, ih (c :: acc)]

theorem expandtabsAux_cons (c : Char) (rest : Str) (col : Nat) :
    expandtabsAux (c :: rest) col =
      (if c = '\t' then
        List.replicate (8 - col % 8) ' ' ++ expandtabsAux rest (col + (8 - col % 8))
      else if c = '\n' ∨ c = '\r' then c :: expandtabsAux rest 0
      else c :: expandtabsAux rest (col + 1)) := rfl

theorem wordsAux_expandtabs : ∀ (s : Str) (col : Nat) (acc : Str),
    wordsAux (expandtabsAux s col) acc = wordsAux s acc := by
  intro s
  induction s with
  | nil => intro col acc; rfl
  | cons c rest ih =>
    intro col acc
    rw [expandtabsAux_cons]
    by_cases ht : c = '\t'
    · subst ht
      rw [if_pos rfl]
      obtain ⟨m, hm⟩ : ∃ m, 8 - col % 8 = m + 1 := ⟨8 - col % 8 - 1, by omega⟩
      rw [hm, List.replicate_succ, List.cons_append, wordsAux_cons,
        if_pos (show isWs ' ' = true by decide)]
      rw [wordsAux_cons, if_pos (show isWs '\t' = true by decide)]
      have hskip : wordsAux (List.replicate m ' ' ++
          expandtabsAux rest (col + (m + 1))) [] = wordsAux rest [] := by
        rw [wordsAux_ws_skip _ _ (by
          intro x hx
          rw [List.eq_of_mem_replicate hx]
          rfl)]
        exact ih _ []
      rw [hskip]
    · rw [if_neg ht]
      have hgen : ∀ col', wordsAux (c :: expandtabsAux rest col') acc =
          wordsAux (c :: rest) acc := by
        intro col'
        rw [wordsAux_cons, wordsAux_cons]
        by_cases hcw : isWs c = true
        · rw [if_pos hcw, if_pos hcw, ih col' []]
        · rw [if_neg hcw, if_neg hcw, ih col' (c :: acc)]
      by_cases hnr : c = '\n' ∨ c = '\r'
      · rw [if_pos hnr]
        exact hgen 0
      · rw [if_neg hnr]
        exact hgen (col + 1)

theorem wordsOf_munge (s : Str) : wordsOf (munge s) = wordsOf s := by
  rw [munge, wordsOf, wordsAux_map_munge, expandtabs, wordsAux_expandtabs]
  rfl

/-! ### A line that carries the words of `L` is at least as long as
`minWrapLen (wordsOf L)` -/

theorem wordsAux_minWrap : ∀ (s acc : Str),
    sumLen (wordsAux s acc) + (wordsAux s acc).length ≤ s.length + acc.length + 1 := by
  intro s
  induction s with
  | nil =>
    intro acc
    by_cases h : acc.isEmpty = true
    · rw [show wordsAux [] acc = [] from by simp [wordsAux, h]]
      simp [sumLen]
    · rw [show wordsAux [] acc = [acc.reverse] from by simp [wordsAux, h]]
      simp [sumLen]
  | cons c rest ih =>
    intro acc
    rw [wordsAux_cons]
    by_cases hc : isWs c = true
    · rw [if_pos hc]
      by_cases h : acc.isEmpty = true
      · rw [if_pos h]
        have hrec := ih []
        simp only [List.length_nil, List.length_cons] at hrec ⊢
        omega
      · rw [if_neg h]
        have hrec := ih []
        have hx : sumLen (acc.reverse :: wordsAux rest []) =
            acc.length + sumLen (wordsAux rest []) := by
          simp [sumLen]
        simp only [List.length_nil, List.length_cons, hx] at hrec ⊢
        omega
    · rw [if_neg hc]
      have hrec := ih (c :: acc)
      simp only [List.length_cons] at hrec ⊢
      omega

theorem minWrapLen_words_le (L : Str) : minWrapLen (wordsOf L) ≤ L.length := by
  cases hw : wordsOf L with
  | nil => simp [minWrapLen, sumLen]
  | cons a w =>
    have h := wordsAux_minWrap L []
    rw [show wordsAux L [] = wordsOf L from rfl, hw] at h
    rw [minWrapLen]
    simp only [List.length_cons, List.length_nil] at h ⊢
    omega

/-! ### takeFit and wrapTake -/

theorem sumLen_nil : sumLen [] = 0 := rfl

theorem sumLen_cons (c0 : Str) (l : List Str) :
    sumLen (c0 :: l) = c0.length + sumLen l := by
  simp [sumLen]

theorem sumLen_append (a b : List Str) : sumLen (a ++ b) = sumLen a + sumLen b := by
  simp [sumLen]

theorem flatten_length_sumLen (l : List Str) : l.flatten.length = sumLen l := by
  rw [List.length_flatten]
  rfl

theorem sumLen_dropLast_le (l : List Str) : sumLen l.dropLast ≤ sumLen l := by
  rcases List.eq_nil_or_concat l with rfl | ⟨l', a, rfl⟩
  · simp
  · simp only [List.concat_eq_append]
    rw [List.dropLast_concat, sumLen_append]
    omega

theorem takeFit_cons (w n : Nat) (c : Str) (rest : List Str) :
    takeFit w n (c :: rest) =
      (if n + c.length ≤ w then
        ((c :: (takeFit w (n + c.length) rest).1), (takeFit w (n + c.length) rest).2)
      else ([], c :: rest)) := rfl

theorem takeFit_append : ∀ (w n : Nat) (l : List Str),
    (takeFit w n l).1 ++ (takeFit w n l).2 = l := by
  intro w n l
  induction l generalizing n with
  | nil => rfl
  | cons c rest ih =>
    rw [takeFit_cons]
    by_cases h : n + c.length ≤ w
    · rw [if_pos h]
      dsimp only
      rw [List.cons_append, ih]
    · rw [if_neg h]
      rfl

theorem takeFit_bound : ∀ (w n : Nat) (l : List Str), n ≤ w →
    n + sumLen (takeFit w n l).1 ≤ w := by
  intro w n l
  induction l generalizing n with
  | nil => intro h; simpa [takeFit, sumLen] using h
  | cons c rest ih =>
    intro h
    rw [takeFit_cons]
    by_cases hf : n + c.length ≤ w
    · rw [if_pos hf]
      have hrec := ih (n + c.length) hf
      dsimp only
      rw [sumLen_cons]
      omega
    · rw [if_neg hf]
      simpa [sumLen] using h

theorem takeFit_cons_empty (w n : Nat) (c : Str) (rest : List Str)
    (h : (takeFit w n (c :: rest)).1 = []) : w < n + c.length := by
  rw [takeFit_cons] at h
  by_cases hf : n + c.length ≤ w
  · rw [if_pos hf] at h
    simp at h
  · omega

/-! ### noWordPair structural lemmas -/

theorem noWordPair_tail (a : Str) (l : List Str) (h : noWordPair (a :: l)) :
    noWordPair l := by
  cases l with
  | nil => trivial
  | cons b r => exact h.2

theorem noWordPair_append_left : ∀ (x y : List Str), noWordPair (x ++ y) → noWordPair x := by
  intro x
  induction x with
  | nil => intro y _; trivial
  | cons a x' ih =>
    intro y h
    cases x' with
    | nil => trivial
    | cons b r => exact ⟨h.1, ih y (noWordPair_tail _ _ h)⟩

theorem noWordPair_append_right : ∀ (x y : List Str), noWordPair (x ++ y) → noWordPair y := by
  intro x
  induction x with
  | nil => exact fun y h => h
  | cons a x' ih => exact fun y h => ih y (noWordPair_tail _ _ h)

theorem chunksWords_append (a b : List Str) :
    chunksWords (a ++ b) = chunksWords a ++ chunksWords b := by
  simp [chunksWords, List.filter_append]

theorem chunksWords_cons_ws (c0 : Str) (l : List Str) (h : isWsChunk c0 = true) :
    chunksWords (c0 :: l) = chunksWords l := by
  simp [chunksWords, List.filter_cons, h]

theorem chunksWords_cons_word (c0 : Str) (l : List Str) (h : isWsChunk c0 = false) :
    chunksWords (c0 :: l) = c0 :: chunksWords l := by
  simp [chunksWords, List.filter_cons, h]

/-! ### trimCur -/

theorem trimCur_eq (cur : List Str) :
    trimCur cur =
      (match cur.getLast? with
       | some lc => if isWsChunk lc then cur.dropLast else cur
       | none => cur) := rfl

theorem trimCur_sumLen_le (l : List Str) : sumLen (trimCur l) ≤ sumLen l := by
  rw [trimCur_eq]
  cases h : l.getLast? with
  | none => exact le_refl _
  | some lc =>
    dsimp only
    by_cases hws : isWsChunk lc = true
    · rw [if_pos hws]
      exact sumLen_dropLast_le l
    · rw [if_neg hws]

theorem trimCur_words (l : List Str) : chunksWords (trimCur l) = chunksWords l := by
  rcases List.eq_nil_or_concat l with rfl | ⟨l', a, rfl⟩
  · rfl
  · simp only [List.concat_eq_append]
    rw [trimCur_eq, List.getLast?_concat]
    dsimp only
    by_cases hws : isWsChunk a = true
    · rw [if_pos hws, List.dropLast_concat, chunksWords, chunksWords, List.filter_append]
      simp [List.filter_cons, hws]
    · rw [if_neg hws]

theorem trimCur_flatten_words (l : List Str)
    (hne : ∀ c0 ∈ l, c0 ≠ []) (hp : ∀ c0 ∈ l, pureChunk c0) (hnw : noWordPair l) :
    wordsOf (trimCur l).flatten = chunksWords l := by
  rcases List.eq_nil_or_concat l with rfl | ⟨l', a, rfl⟩
  · rfl
  · simp only [List.concat_eq_append] at hne hp hnw ⊢
    rw [trimCur_eq, List.getLast?_concat]
    dsimp only
    by_cases hws : isWsChunk a = true
    · rw [if_pos hws, List.dropLast_concat]
      rw [wordsOf_flatten l' (fun x hx => hne x (by simp [hx]))
        (fun x hx => hp x (by simp [hx])) (noWordPair_append_left l' [a] hnw)]
      rw [chunksWords_append, chunksWords_cons_ws a [] hws]
      simp [chunksWords]
    · rw [if_neg hws]
      exact wordsOf_flatten _ hne hp hnw

/-! ### wrapTake -/

theorem wrapTake_cases (w : Nat) (chunks : List Str) :
    (wrapTake w chunks = takeFit w 0 chunks ∧
      ((takeFit w 0 chunks).2 = [] ∨
        ∃ r0 rs, (takeFit w 0 chunks).2 = r0 :: rs ∧ ¬ w < r0.length))
    ∨ ∃ t r0 rs, takeFit w 0 chunks = (t, r0 :: rs) ∧ w < r0.length ∧
        wrapTake w chunks =
          (t ++ [r0.take (spaceLeft w (sumLen t))],
           r0.drop (spaceLeft w (sumLen t)) :: rs) := by
  rcases hp : takeFit w 0 chunks with ⟨t, r⟩
  cases r with
  | nil =>
    left
    constructor
    · simp [wrapTake, hp]
    · left; simp [hp]
  | cons r0 rs =>
    by_cases hl : w < r0.length
    · right
      refine ⟨t, r0, rs, rfl, hl, ?_⟩
      simp [wrapTake, hp, hl]
    · left
      constructor
      · simp [wrapTake, hp, hl]
      · right
        exact ⟨r0, rs, by simp [hp], hl⟩

theorem wrapTake_sumLen (w : Nat) (hw : 1 ≤ w) (chunks : List Str) :
    sumLen (wrapTake w chunks).1 ≤ w := by
  rcases wrapTake_cases w chunks with ⟨heq, -⟩ | ⟨t, r0, rs, hp, hl, heq⟩
  · rw [heq]
    have hb := takeFit_bound w 0 chunks (by omega)
    omega
  · rw [heq]
    dsimp only
    have hbt : sumLen t ≤ w := by
      have hb := takeFit_bound w 0 chunks (by omega)
      rw [hp] at hb
      simpa using hb
    have hsp : spaceLeft w (sumLen t) = w - sumLen t := by
      rw [spaceLeft, if_neg (by omega)]
    have htk : (r0.take (spaceLeft w (sumLen t))).length ≤ w - sumLen t := by
      rw [hsp, List.length_take]
      omega
    rw [sumLen_append, sumLen_cons, sumLen_nil]
    omega

theorem wrapTake_mu (w : Nat) (hw : 1 ≤ w) (chunks : List Str) (hch : chunks ≠ []) :
    sumLen (wrapTake w chunks).2 + (wrapTake w chunks).2.length <
      sumLen chunks + chunks.length := by
  have happ := takeFit_append w 0 chunks
  rcases wrapTake_cases w chunks with ⟨heq, hside⟩ | ⟨t, r0, rs, hp, hl, heq⟩
  · rw [heq]
    cases ht : (takeFit w 0 chunks).1 with
    | nil =>
      rw [ht] at happ
      rw [List.nil_append] at happ
      rcases hside with h2 | ⟨r0, rs, h2, hnl⟩
      · rw [h2] at happ
        exact absurd happ.symm hch
      · rw [h2] at happ
        obtain ⟨c, cs, rfl⟩ := List.exists_cons_of_ne_nil hch
        have hlt : w < 0 + c.length := takeFit_cons_empty w 0 c cs ht
        have hcr : r0 = c := by
          have := happ
          rw [List.cons.injEq] at this
          exact this.1
        rw [hcr] at hnl
        omega
    | cons a t' =>
      have hsum : sumLen chunks = sumLen (a :: t') + sumLen (takeFit w 0 chunks).2 := by
        conv_lhs => rw [← happ, ht]
        rw [sumLen_append]
      have hlen : chunks.length = (a :: t').length + (takeFit w 0 chunks).2.length := by
        conv_lhs => rw [← happ, ht]
        rw [List.length_append]
      rw [hsum, hlen, sumLen_cons, List.length_cons]
      omega
  · rw [heq]
    dsimp only
    have happ2 : t ++ (r0 :: rs) = chunks := by
      rw [hp] at happ
      exact happ
    rw [← happ2, sumLen_append, List.length_append, sumLen_cons, List.length_cons,
      sumLen_cons, List.length_cons, List.length_drop]
    cases t with
    | nil =>
      have hsp : spaceLeft w (sumLen ([] : List Str)) = w := by
        rw [spaceLeft, if_neg (by omega)]
        simp [sumLen]
      rw [hsp, sumLen_nil]
      simp only [List.length_nil]
      omega
    | cons b t' =>
      rw [sumLen_cons, List.length_cons]
      have hdl : (r0.drop (spaceLeft w (sumLen (b :: t')))).length ≤ r0.length := by
        rw [List.length_drop]
        omega
      omega

theorem wrapTake_inv (w : Nat) (hw : 1 ≤ w) (chunks : List Str)
    (hne : ∀ c0 ∈ chunks, c0 ≠ []) (hp : ∀ c0 ∈ chunks, pureChunk c0)
    (hnw : noWordPair chunks)
    (hb : ∀ c0 ∈ chunks, isWsChunk c0 = false → c0.length ≤ w) :
    chunksWords (wrapTake w chunks).1 ++ chunksWords (wrapTake w chunks).2 =
      chunksWords chunks
    ∧ (∀ c0 ∈ (wrapTake w chunks).2, c0 ≠ [])
    ∧ (∀ c0 ∈ (wrapTake w chunks).2, pureChunk c0)
    ∧ noWordPair (wrapTake w chunks).2
    ∧ (∀ c0 ∈ (wrapTake w chunks).2, isWsChunk c0 = false → c0.length ≤ w)
    ∧ wordsOf (trimCur (wrapTake w chunks).1).flatten =
        chunksWords (wrapTake w chunks).1 := by
  have happ := takeFit_append w 0 chunks
  rcases wrapTake_cases w chunks with ⟨heq, -⟩ | ⟨t, r0, rs, hpq, hl, heq⟩
  · rw [heq]
    have hmem1 : ∀ x ∈ (takeFit w 0 chunks).1, x ∈ chunks := by
      intro x hx
      rw [← happ]
      exact List.mem_append.mpr (Or.inl hx)
    have hmem2 : ∀ x ∈ (takeFit w 0 chunks).2, x ∈ chunks := by
      intro x hx
      rw [← happ]
      exact List.mem_append.mpr (Or.inr hx)
    have hnw1 : noWordPair (takeFit w 0 chunks).1 := by
      apply noWordPair_append_left _ (takeFit w 0 chunks).2
      rw [happ]
      exact hnw
    have hnw2 : noWordPair (takeFit w 0 chunks).2 := by
      apply noWordPair_append_right (takeFit w 0 chunks).1
      rw [happ]
      exact hnw
    refine ⟨?_, fun c0 h => hne c0 (hmem2 c0 h), fun c0 h => hp c0 (hmem2 c0 h), hnw2,
      fun c0 h => hb c0 (hmem2 c0 h), ?_⟩
    · rw [← chunksWords_append, happ]
    · exact trimCur_flatten_words _ (fun c0 h => hne c0 (hmem1 c0 h))
        (fun c0 h => hp c0 (hmem1 c0 h)) hnw1
  · have happ2 : t ++ (r0 :: rs) = chunks := by
      rw [hpq] at happ
      exact happ
    have hr0mem : r0 ∈ chunks := by
      rw [← happ2]
      simp
    have hr0ws : isWsChunk r0 = true := by
      by_contra hq
      have := hb r0 hr0mem (by simpa using hq)
      omega
    have hr0all : ∀ x ∈ r0, isWs x = true := (isWsChunk_iff r0).mp hr0ws
    have hmemt : ∀ x ∈ t, x ∈ chunks := by
      intro x hx
      rw [← happ2]
      exact List.mem_append.mpr (Or.inl hx)
    have hmemrs : ∀ x ∈ rs, x ∈ chunks := by
      intro x hx
      rw [← happ2]
      exact List.mem_append.mpr (Or.inr (List.mem_cons_of_mem _ hx))
    rw [heq]
    dsimp only
    have hpre_all : ∀ x ∈ r0.take (spaceLeft w (sumLen t)), isWs x = true :=
      fun x hx => hr0all x (List.mem_of_mem_take hx)
    have hpre_ws : isWsChunk (r0.take (spaceLeft w (sumLen t))) = true :=
      (isWsChunk_iff _).mpr hpre_all
    have hsuf_all : ∀ x ∈ r0.drop (spaceLeft w (sumLen t)), isWs x = true :=
      fun x hx => hr0all x (List.mem_of_mem_drop hx)
    have hsuf_ws : isWsChunk (r0.drop (spaceLeft w (sumLen t))) = true :=
      (isWsChunk_iff _).mpr hsuf_all
    have hsp : spaceLeft w (sumLen t) ≤ w := by
      rw [spaceLeft, if_neg (by omega)]
      omega
    have hsuf_ne : r0.drop (spaceLeft w (sumLen t)) ≠ [] := by
      intro hnil
      have hlen0 := congrArg List.length hnil
      rw [List.length_drop] at hlen0
      simp only [List.length_nil] at hlen0
      omega
    have hnwrs : noWordPair rs := by
      have h1 : noWordPair (r0 :: rs) := by
        apply noWordPair_append_right t
        rw [happ2]
        exact hnw
      exact noWordPair_tail _ _ h1
    have hnwt : noWordPair t := by
      apply noWordPair_append_left t (r0 :: rs)
      rw [happ2]
      exact hnw
    refine ⟨?_, ?_, ?_, ?_, ?_, ?_⟩
    · rw [chunksWords_append, chunksWords_cons_ws _ _ hpre_ws,
        chunksWords_cons_ws _ _ hsuf_ws, ← happ2, chunksWords_append,
        chunksWords_cons_ws _ _ hr0ws]
      simp [chunksWords]
    · intro c0 h
      rcases List.mem_cons.mp h with rfl | hm
      · exact hsuf_ne
      · exact hne c0 (hmemrs c0 hm)
    · intro c0 h
      rcases List.mem_cons.mp h with rfl | hm
      · exact Or.inl hsuf_all
      · exact hp c0 (hmemrs c0 hm)
    · cases rs with
      | nil => trivial
      | cons b r2 => exact ⟨Or.inl hsuf_ws, hnwrs⟩
    · intro c0 h
      rcases List.mem_cons.mp h with rfl | hm
      · intro hq
        rw [hsuf_ws] at hq
        exact absurd hq (by simp)
      · exact hb c0 (hmemrs c0 hm)
    · rw [trimCur_eq, List.getLast?_concat]
      dsimp only
      rw [if_pos hpre_ws, List.dropLast_concat]
      rw [wordsOf_flatten t (fun x h => hne x (hmemt x h))
        (fun x h => hp x (hmemt x h)) hnwt]
      rw [chunksWords_append, chunksWords_cons_ws _ _ hpre_ws]
      simp [chunksWords]

/-! ### The wrapped lines: length bound and word preservation -/

theorem wrapChunksFuel_nil (w fuel : Nat) (noLines : Bool) :
    wrapChunksFuel w fuel [] noLines = [] := by
  cases fuel <;> rfl

theorem wrapChunksFuel_succ_cons (w fuel : Nat) (c : Str) (cs : List Str)
    (noLines : Bool) :
    wrapChunksFuel w (fuel + 1) (c :: cs) noLines =
      (if (trimCur (wrapTake w
            (if isWsChunk c && !noLines then cs else c :: cs)).1).isEmpty then
        wrapChunksFuel w fuel
          (wrapTake w (if isWsChunk c && !noLines then cs else c :: cs)).2 noLines
      else
        (trimCur (wrapTake w
            (if isWsChunk c && !noLines then cs else c :: cs)).1).flatten ::
          wrapChunksFuel w fuel
            (wrapTake w (if isWsChunk c && !noLines then cs else c :: cs)).2 false) :=
  rfl

theorem wrapChunksFuel_bound (w : Nat) (hw : 1 ≤ w) :
    ∀ (fuel : Nat) (chunks : List Str) (noLines : Bool) (l : Str),
    l ∈ wrapChunksFuel w fuel chunks noLines → l.length ≤ w := by
  intro fuel
  induction fuel with
  | zero =>
    intro chunks noLines l hl
    simp [wrapChunksFuel] at hl
  | succ fuel ih =>
    intro chunks noLines l hl
    cases chunks with
    | nil =>
      rw [wrapChunksFuel_nil] at hl
      simp at hl
    | cons c cs =>
      rw [wrapChunksFuel_succ_cons] at hl
      by_cases hcur : (trimCur (wrapTake w
          (if isWsChunk c && !noLines then cs else c :: cs)).1).isEmpty = true
      · rw [if_pos hcur] at hl
        exact ih _ _ l hl
      · rw [if_neg hcur] at hl
        rcases List.mem_cons.mp hl with rfl | hmem
        · rw [flatten_length_sumLen]
          calc sumLen (trimCur (wrapTake w
                (if isWsChunk c && !noLines then cs else c :: cs)).1)
              ≤ sumLen (wrapTake w
                (if isWsChunk c && !noLines then cs else c :: cs)).1 :=
                trimCur_sumLen_le _
            _ ≤ w := wrapTake_sumLen w hw _
        · exact ih _ _ l hmem

theorem trimCur_isEmpty_words (l : List Str)
    (h : (trimCur l).isEmpty = true) : chunksWords l = [] := by
  have hnil : trimCur l = [] := by simpa [List.isEmpty_iff] using h
  have := trimCur_words l
  rw [hnil] at this
  exact this.symm

theorem wrapChunksFuel_words (w : Nat) (hw : 1 ≤ w) :
    ∀ (fuel : Nat) (chunks : List Str) (noLines : Bool),
    sumLen chunks + chunks.length ≤ fuel →
    (∀ c0 ∈ chunks, c0 ≠ []) → (∀ c0 ∈ chunks, pureChunk c0) →
    noWordPair chunks →
    (∀ c0 ∈ chunks, isWsChunk c0 = false → c0.length ≤ w) →
    (wrapChunksFuel w fuel chunks noLines).flatMap wordsOf = chunksWords chunks := by
  intro fuel
  induction fuel with
  | zero =>
    intro chunks noLines hfuel hne hp hnw hb
    have hch : chunks = [] := by
      cases chunks with
      | nil => rfl
      | cons a l =>
        rw [List.length_cons] at hfuel
        omega
    subst hch
    rfl
  | succ fuel ih =>
    intro chunks noLines hfuel hne hp hnw hb
    cases chunks with
    | nil => rfl
    | cons c cs =>
      rw [wrapChunksFuel_succ_cons]
      obtain ⟨chunks1, hch1, hcw1, hne1, hp1, hnw1, hb1, hmu1⟩ :
          ∃ chunks1, (if isWsChunk c && !noLines then cs else c :: cs) = chunks1
            ∧ chunksWords chunks1 = chunksWords (c :: cs)
            ∧ (∀ c0 ∈ chunks1, c0 ≠ []) ∧ (∀ c0 ∈ chunks1, pureChunk c0)
            ∧ noWordPair chunks1
            ∧ (∀ c0 ∈ chunks1, isWsChunk c0 = false → c0.length ≤ w)
            ∧ sumLen chunks1 + chunks1.length ≤ fuel + 1 := by
        by_cases hdrop : (isWsChunk c && !noLines) = true
        · refine ⟨cs, by rw [if_pos hdrop], ?_, ?_, ?_, ?_, ?_, ?_⟩
          · rw [chunksWords_cons_ws c cs (Bool.and_eq_true_iff.mp hdrop).1]
          · exact fun x hx => hne x (List.mem_cons_of_mem _ hx)
          · exact fun x hx => hp x (List.mem_cons_of_mem _ hx)
          · exact noWordPair_tail _ _ hnw
          · exact fun x hx => hb x (List.mem_cons_of_mem _ hx)
          · rw [sumLen_cons, List.length_cons] at hfuel
            omega
        · exact ⟨c :: cs, by rw [if_neg hdrop], rfl, hne, hp, hnw, hb, hfuel⟩
      rw [hch1, ← hcw1]
      by_cases hch1nil : chunks1 = []
      · subst hch1nil
        rw [show wrapTake w [] = (([] : List Str), ([] : List Str)) from rfl]
        rw [show trimCur ([] : List Str) = [] from rfl]
        rw [if_pos (show (List.isEmpty ([] : List Str)) = true from rfl)]
        rw [wrapChunksFuel_nil]
        rfl
      · obtain ⟨hsplit, hne2, hp2, hnw2, hb2, htrim⟩ :=
          wrapTake_inv w hw chunks1 hne1 hp1 hnw1 hb1
        have hmu2 : sumLen (wrapTake w chunks1).2 + (wrapTake w chunks1).2.length ≤ fuel := by
          have hmu := wrapTake_mu w hw chunks1 hch1nil
          omega
        by_cases hcur : (trimCur (wrapTake w chunks1).1).isEmpty = true
        · rw [if_pos hcur]
          rw [ih _ noLines hmu2 hne2 hp2 hnw2 hb2]
          have hq1 : chunksWords (wrapTake w chunks1).1 = [] :=
            trimCur_isEmpty_words _ hcur
          rw [← hsplit, hq1, List.nil_append]
        · rw [if_neg hcur]
          rw [List.flatMap_cons, htrim, ih _ false hmu2 hne2 hp2 hnw2 hb2]
          exact hsplit

theorem pyWrap_bound (line : Str) : ∀ l ∈ pyWrap line 64, l.length ≤ 64 :=
  fun l hl => wrapChunksFuel_bound 64 (by omega) _ _ _ l hl

theorem pyWrap_words (line : Str) (hb : ∀ x ∈ wordsOf line, x.length ≤ 64) :
    (pyWrap line 64).flatMap wordsOf = wordsOf line := by
  have hprops := splitChunks_props (munge line)
  have hwords := splitChunks_words (munge line)
  have hbm : ∀ c0 ∈ splitChunks (munge line), isWsChunk c0 = false → c0.length ≤ 64 := by
    intro c0 hc0 hws
    have hcm : c0 ∈ chunksWords (splitChunks (munge line)) := by
      rw [chunksWords]
      exact List.mem_filter.mpr ⟨hc0, by simp [hws]⟩
    rw [hwords, wordsOf_munge] at hcm
    exact hb c0 hcm
  rw [pyWrap, wrapChunks]
  rw [wrapChunksFuel_words 64 (by omega) _ _ _ (le_refl _)
    (fun c0 h => (hprops.1 c0 h).1) (fun c0 h => (hprops.1 c0 h).2) hprops.2 hbm]
  rw [hwords, wordsOf_munge]

theorem pyWrap_two_lines (line : Str) (hb : ∀ x ∈ wordsOf line, x.length ≤ 64)
    (hmin : 64 < minWrapLen (wordsOf line)) : 2 ≤ (pyWrap line 64).length := by
  have hwp := pyWrap_words line hb
  cases hout : pyWrap line 64 with
  | nil =>
    rw [hout] at hwp
    rw [List.flatMap_nil] at hwp
    rw [← hwp] at hmin
    simp [minWrapLen, sumLen] at hmin
  | cons L rest =>
    cases rest with
    | nil =>
      rw [hout] at hwp
      rw [List.flatMap_cons, List.flatMap_nil, List.append_nil] at hwp
      have hL : L.length ≤ 64 :=
        pyWrap_bound line L (by rw [hout]; exact List.mem_cons_self _ _)
      have hmw := minWrapLen_words_le L
      rw [hwp] at hmw
      omega
    | cons L2 r2 => simp

/-- C4 counterexample: a single 65-character word is longer than 64
characters, yet `textwrap.wrap` (with its default `break_long_words=True`)
splits it mid-word into a 64-character line and a 1-character line, so the
produced lines' words are not the words of the input — refuting "no word is
ever broken mid-word". -/
theorem c4_wrap_counterexample :
    64 < c4Line.length
    ∧ pyWrap c4Line 64 = [List.replicate 64 'a', ['a']]
    ∧ (pyWrap c4Line 64).flatMap wordsOf ≠ wordsOf c4Line := by
  refine ⟨by decide, by decide, by decide⟩

/-- C4 (amended): every drawn line produced by the 64-column word-wrap is at
most 64 characters; for a line with no hyphen whose whitespace-separated
words each fit in 64 characters, the wrap breaks only at whitespace (the
wrapped lines' words are exactly the line's words, in order), and if those
words cannot fit on one 64-character line even with single spaces, at least
two lines are produced.  Words longer than 64 characters are broken mid-word
(`break_long_words`), which is what the counterexample exhibits. -/
theorem c4_wrap_amended (line : Str) :
    (∀ l ∈ pyWrap line 64, l.length ≤ 64)
    ∧ ('-' ∉ line →
        (∀ x ∈ wordsOf line, x.length ≤ 64) →
        ((pyWrap line 64).flatMap wordsOf = wordsOf line
         ∧ (64 < minWrapLen (wordsOf line) → 2 ≤ (pyWrap line 64).length))) :=
  ⟨pyWrap_bound line,
   fun _ hb => ⟨pyWrap_words line hb, pyWrap_two_lines line hb⟩⟩

theorem c4_witness :
    (pyWrap c4WitnessLine 64).flatMap wordsOf = wordsOf c4WitnessLine
    ∧ 2 ≤ (pyWrap c4WitnessLine 64).length :=
  ⟨((c4_wrap_amended c4WitnessLine).2 (by decide) (by decide)).1,
   ((c4_wrap_amended c4WitnessLine).2 (by decide) (by decide)).2 (by decide)⟩
